import Mathlib

/-!
# Verification of the jj-vsc process-execution and status-parsing core

Shallow embedding of `src/domain/JjRepository.ts` (the process runner
`execJj`, the status parser `parseStatusOutput` with its rename helper
`extractNewPathFromRename`, and the `JjRepository` facade methods
`status`, `commit`, `listBranches`, `mergeBranch`).

JavaScript strings are modelled as `List Char`; the JS string operations
used by the source (`trim`, `split`, `indexOf`, `slice`, `includes`,
`startsWith`) are defined below with JS semantics.  Asynchronous process
execution is modelled by passing the outcome of each external spawn
(`SpawnOutcome`) as an explicit argument; each facade model also returns
the number of spawns it performs, so fail-fast behaviour ("no process
invocation") is expressible.
-/

namespace JjVsc

/-- Shorthand: a JS string as a list of characters. -/
def toL (s : String) : List Char := s.toList

/-- The whitespace class used by JS `String.prototype.trim` (restricted to
the ASCII whitespace characters that can occur in the inputs modelled
here: space, tab, LF, CR, vertical tab, form feed). -/
def isWS (c : Char) : Bool :=
  c = ' ' || c = '\t' || c = '\n' || c = '\r' || c = Char.ofNat 11 || c = Char.ofNat 12

/-- Drop trailing whitespace (the right half of JS `trim`). -/
def dropTrail (l : List Char) : List Char :=
  (l.reverse.dropWhile isWS).reverse

/-- JS `String.prototype.trim`: strip leading and trailing whitespace. -/
def trim (l : List Char) : List Char :=
  dropTrail (l.dropWhile isWS)

/-- JS `s.split(/\r?\n/)` (used by `parseStatusOutput`): split on `\r\n`
or `\n`; a lone `\r` is not a separator. -/
def splitLinesAux : List Char → List Char → List (List Char)
  | [], acc => [acc.reverse]
  | '\r' :: '\n' :: rest, acc => acc.reverse :: splitLinesAux rest []
  | '\n' :: rest, acc => acc.reverse :: splitLinesAux rest []
  | c :: rest, acc => splitLinesAux rest (c :: acc)

/-- Split a string into its lines, CR/LF tolerant. -/
def splitLines (l : List Char) : List (List Char) :=
  splitLinesAux l []

/-- JS `s.split(sep)` for a single-character separator (used with `'\n'`
by the error-message derivation and branch listing, and with `'/'` by the
path-normalization model). -/
def splitOnCharAux (sep : Char) : List Char → List Char → List (List Char)
  | [], acc => [acc.reverse]
  | c :: rest, acc =>
      if c = sep then acc.reverse :: splitOnCharAux sep rest []
      else splitOnCharAux sep rest (c :: acc)

/-- Split on a single character, JS `split` semantics. -/
def splitOnChar (sep : Char) (l : List Char) : List (List Char) :=
  splitOnCharAux sep l []

/-- First index of a character, JS `s.indexOf(c)` (`none` for JS `-1`). -/
def idxOfC (c : Char) : List Char → Option Nat
  | [] => none
  | x :: xs => if x = c then some 0 else (idxOfC c xs).map (· + 1)

/-- First index of a substring, JS `s.indexOf(sub)` (`none` for `-1`). -/
def idxOfSub (needle : List Char) : List Char → Option Nat
  | [] => if needle.isEmpty then some 0 else none
  | x :: xs =>
      if needle.isPrefixOf (x :: xs) then some 0
      else (idxOfSub needle xs).map (· + 1)

/-- JS `s.includes(sub)`. -/
def hasSub (needle l : List Char) : Bool :=
  (idxOfSub needle l).isSome

/-- JS `s.includes(sub)` on an optional string (`err.stderr?.includes(p)`
is falsy when `stderr` is `undefined`). -/
def optHasSub (needle : List Char) : Option (List Char) → Bool
  | none => false
  | some l => hasSub needle l

/-- Decimal rendering of a natural number (JS template interpolation of
the exit code). Fuel-structured so the kernel can evaluate it. -/
def natToDecimalAux : Nat → Nat → List Char → List Char
  | 0, _, acc => acc
  | fuel + 1, n, acc =>
      if n < 10 then Char.ofNat (48 + n) :: acc
      else natToDecimalAux fuel (n / 10) (Char.ofNat (48 + n % 10) :: acc)

/-- Decimal rendering of a natural number. -/
def natToDecimal (n : Nat) : List Char :=
  natToDecimalAux (n + 1) n []

/-- The `'\x7b'` character (written via its code to keep brace balance in
source text). -/
def lbrace : Char := Char.ofNat 123

/-- The `'\x7d'` character. -/
def rbrace : Char := Char.ofNat 125

/-- The rename arrow token `"=>"`. -/
def arrowTok : List Char := toL "=>"

end JjVsc

namespace JjVsc

/-! ## Data model (`FileStatus`, `StatusSummary`) -/

/-- The `status` field of a `FileStatus` entry
(`'modified' | 'added' | 'deleted' | 'moved'`). -/
inductive Status where
  | modified
  | added
  | deleted
  | moved
  deriving DecidableEq, Repr

/-- `FileStatus`: one changed path and its kind. -/
structure FileStatus where
  path : List Char
  status : Status
  deriving DecidableEq, Repr

/-- `StatusSummary`: the four change groups. -/
structure StatusSummary where
  modified : List FileStatus
  added : List FileStatus
  deleted : List FileStatus
  moved : List FileStatus
  deriving DecidableEq, Repr

/-- The summary `parseStatusOutput` starts from. -/
def emptySummary : StatusSummary := ⟨[], [], [], []⟩

/-! ## `extractNewPathFromRename` -/

/-- `extractNewPathFromRename(rawPath)` from `JjRepository.ts`:
`start = rawPath.indexOf('\x7b')`, `end = rawPath.indexOf('\x7d')`;
without a well-ordered brace pair, take the trimmed text after the first
`=>` if any, else the field verbatim; with one, rebuild
`prefix + trim(textAfterArrow) + suffix`, falling back to the verbatim
field when the braces hold no `=>`.  JS `slice` is `List.take`/`List.drop`. -/
def extractNewPathFromRename (rawPath : List Char) : List Char :=
  let start := idxOfC lbrace rawPath
  let stop := idxOfC rbrace rawPath
  match start, stop with
  | some s, some e =>
      if e < s then
        match idxOfSub arrowTok rawPath with
        | some a => trim (rawPath.drop (a + 2))
        | none => rawPath
      else
        let pre := rawPath.take s
        let inner := (rawPath.take e).drop (s + 1)
        let suf := rawPath.drop (e + 1)
        match idxOfSub arrowTok inner with
        | some a => pre ++ trim (inner.drop (a + 2)) ++ suf
        | none => rawPath
  | _, _ =>
      match idxOfSub arrowTok rawPath with
      | some a => trim (rawPath.drop (a + 2))
      | none => rawPath

/-! ## `parseStatusOutput` -/

/-- The echoed-invocation marker `"jj "`; lines starting with it are
skipped by the parser. -/
def jjEcho : List Char := toL "jj "

/-- One iteration of the `for` loop of `parseStatusOutput`: trim the raw
line, skip empty and echoed lines, read the first character as the status
code and the trimmed remainder as the path field, and append the entry to
the group selected by the code (unknown codes are ignored). -/
def processLine (summary : StatusSummary) (rawLine : List Char) : StatusSummary :=
  let line := trim rawLine
  if line = [] then summary
  else if jjEcho.isPrefixOf line then summary
  else
    match line with
    | [] => summary
    | code :: restRaw =>
      let rest := trim restRaw
      if code = 'A' then { summary with added := summary.added ++ [⟨rest, .added⟩] }
      else if code = 'D' then { summary with deleted := summary.deleted ++ [⟨rest, .deleted⟩] }
      else if code = 'M' then { summary with modified := summary.modified ++ [⟨rest, .modified⟩] }
      else if code = 'R' then
        { summary with moved := summary.moved ++ [⟨extractNewPathFromRename rest, .moved⟩] }
      else summary

/-- `parseStatusOutput(output)`: split on `\r?\n` and fold the per-line
step over the lines. -/
def parseStatusOutput (output : List Char) : StatusSummary :=
  (splitLines output).foldl processLine emptySummary

/-- The per-line step with the one partial operation of the source —
reading `line[0]` — made explicit as an `Option` bind: a `none` result
would mean the loop body reads a character that is not there.  Used to
state that the parser never fails. -/
def processLineE (summary : StatusSummary) (rawLine : List Char) : Option StatusSummary :=
  let line := trim rawLine
  if line = [] then some summary
  else if jjEcho.isPrefixOf line then some summary
  else
    line.head?.bind fun code =>
      let rest := trim (line.drop 1)
      if code = 'A' then some { summary with added := summary.added ++ [⟨rest, .added⟩] }
      else if code = 'D' then some { summary with deleted := summary.deleted ++ [⟨rest, .deleted⟩] }
      else if code = 'M' then some { summary with modified := summary.modified ++ [⟨rest, .modified⟩] }
      else if code = 'R' then
        some { summary with moved := summary.moved ++ [⟨extractNewPathFromRename rest, .moved⟩] }
      else some summary

/-- `parseStatusOutput` with the explicit partiality of `processLineE`
threaded through the whole loop. -/
def parseStatusOutputE (output : List Char) : Option StatusSummary :=
  (splitLines output).foldlM processLineE emptySummary

end JjVsc

namespace JjVsc

/-! ## The process runner `execJj` -/

/-- `JjExecutionError` (the fields the claims are about: the derived
message, the argument list, the captured stderr when any, the exit code
when any). -/
structure JjError where
  message : List Char
  args : List (List Char)
  stderr : Option (List Char)
  exitCode : Option Nat
  deriving DecidableEq, Repr

/-- The outcome of one `execFileAsync('jj', args, ...)` spawn, i.e. the
case split of `execJj`'s `try/catch`: clean resolution with captured
stdout/stderr, `ENOENT`, timeout, non-zero exit (with the optional
`stderr` property of the rejection), or an unclassified error (whose
`message` is present when the thrown value is an `Error`). -/
inductive SpawnOutcome where
  | success (stdout stderr : List Char)
  | enoent
  | timedOut (stderr : Option (List Char))
  | nonZeroExit (exitCode : Nat) (stderr : Option (List Char))
  | other (message : Option (List Char))
  deriving DecidableEq, Repr

deriving instance DecidableEq for Except

/-- What one `execJj` call produces: either trimmed stdout or a
`JjError`, together with the warnings it logs on the way. -/
structure ExecOutcome where
  result : Except JjError (List Char)
  warnings : List (List Char)
  deriving DecidableEq, Repr

/-- The generic message `` `JuJutsu command failed with exit code ${exitCode}` ``. -/
def genericFailMsg (exitCode : Nat) : List Char :=
  toL "JuJutsu command failed with exit code " ++ natToDecimal exitCode

/-- The `stderr`-pattern message derivation of `execJj`'s non-zero-exit
branch: start from the generic message; when `stderr` is non-empty, run
the ordered `includes` chain, else fall back to
`stderr.trim().split('\n')[0]` when that first line is non-empty. -/
def deriveMessage (exitCode : Nat) (stderr : List Char) : List Char :=
  let generic := genericFailMsg exitCode
  if stderr = [] then generic
  else if hasSub (toL "No such revset") stderr then
    toL "Invalid revision or branch reference"
  else if hasSub (toL "Concurrent modification") stderr then
    toL "Repository was modified by another process"
  else if hasSub (toL "Permission denied") stderr then
    toL "Permission denied accessing repository"
  else if hasSub (toL "not a valid Jujutsu repository") stderr then
    toL "Not a valid JuJutsu repository"
  else
    let firstLine := (splitOnChar '\n' (trim stderr)).headD []
    if firstLine = [] then generic else firstLine

/-- `execJj(args, ...)` as a function of the spawn's outcome.  The
success branch logs non-blank stderr as a warning and returns the trimmed
stdout; the failure branches build the `JjExecutionError` of the source
(`ENOENT`, timeout, non-zero exit with the message table above — a
falsy/zero `code` falls through to the unknown-error branch, as in the
JS truthiness test `errorWithCode.code && typeof ... === 'number'`). -/
def execJj (args : List (List Char)) : SpawnOutcome → ExecOutcome
  | .success stdout stderr =>
      { result := .ok (trim stdout)
        warnings :=
          if trim stderr = [] then []
          else [toL "jj command warning: " ++ trim stderr] }
  | .enoent =>
      { result := .error
          ⟨toL "JuJutsu (jj) is not installed or not found in PATH", args, none, none⟩
        warnings := [] }
  | .timedOut stderr =>
      { result := .error
          ⟨toL "JuJutsu command timed out after 30 seconds", args, stderr, none⟩
        warnings := [] }
  | .nonZeroExit exitCode stderr =>
      if exitCode = 0 then
        { result := .error ⟨toL "Unknown error executing jj command", args, none, none⟩
          warnings := [] }
      else
        let st := stderr.getD []
        { result := .error ⟨deriveMessage exitCode st, args, some st, some exitCode⟩
          warnings := [] }
  | .other message =>
      { result := .error
          ⟨message.getD (toL "Unknown error executing jj command"), args, none, none⟩
        warnings := [] }

end JjVsc

namespace JjVsc

/-! ## Node `path.posix.join` (used by `status()`'s `makeAbsolute`) -/

/-- One segment step of Node's `normalizeString`: skip empty and `"."`
segments; on `".."` pop the last kept segment unless it is itself `".."`
(then keep the `".."` only when `allowAboveRoot`); keep anything else.
The accumulator holds the kept segments in reverse. -/
def normSegStep (allowAboveRoot : Bool) (acc : List (List Char)) (seg : List Char) :
    List (List Char) :=
  if seg = [] ∨ seg = ['.'] then acc
  else if seg = ['.', '.'] then
    match acc with
    | [] => if allowAboveRoot then [seg] else []
    | top :: rest => if top = ['.', '.'] then (if allowAboveRoot then seg :: acc else acc) else rest
  else seg :: acc

/-- Node `path.posix.normalize`: record absoluteness and a trailing
slash, run the segment normalization (`allowAboveRoot` exactly when the
path is relative), and reassemble. -/
def normalizePosix (p : List Char) : List Char :=
  if p = [] then ['.']
  else
    let isAbs := p.head? = some '/'
    let trailingSep := p.getLast? = some '/'
    let segs := splitOnChar '/' p
    let kept := (segs.foldl (normSegStep (!isAbs)) []).reverse
    let core := (kept.intersperse ['/']).flatten
    if core = [] then
      if isAbs then ['/'] else if trailingSep then ['.', '/'] else ['.']
    else
      let core := if trailingSep then core ++ ['/'] else core
      if isAbs then '/' :: core else core

/-- Node `path.posix.join(a, b)`: drop empty parts, join the rest with a
slash, normalize; `'.'` when both parts are empty. -/
def pathJoin (a b : List Char) : List Char :=
  if a = [] then (if b = [] then ['.'] else normalizePosix b)
  else if b = [] then normalizePosix a
  else normalizePosix (a ++ '/' :: b)

/-- A path is absolute in the posix sense exactly when it starts with
`'/'`. -/
def isAbsolutePath (p : List Char) : Bool :=
  p.head? = some '/'

/-! ## The `JjRepository` facade -/

/-- `makeAbsolute` from `status()`: rewrite an entry's path by joining it
with the repository root. -/
def makeAbsolute (root : List Char) (f : FileStatus) : FileStatus :=
  { f with path := pathJoin root f.path }

/-- The pure content of `status()`: parse the diff output, then map
`makeAbsolute` over each of the four groups. -/
def statusModel (root : List Char) (diffOutput : List Char) : StatusSummary :=
  let summary := parseStatusOutput diffOutput
  { modified := summary.modified.map (makeAbsolute root)
    added := summary.added.map (makeAbsolute root)
    deleted := summary.deleted.map (makeAbsolute root)
    moved := summary.moved.map (makeAbsolute root) }

/-- A value thrown by a facade method: either a plain `Error(message)`
(the source's validation and domain errors) or a propagated
`JjExecutionError`. -/
inductive Thrown where
  | plain (message : List Char)
  | execErr (e : JjError)
  deriving DecidableEq, Repr

/-- `commit(message)`: fail fast on an empty/all-whitespace message with
zero spawns; otherwise run `jj commit -m <message>` (one spawn), remap a
`nothing to commit` stderr, and propagate other failures.  The second
component counts process invocations. -/
def commitModel (message : List Char) (outcome : SpawnOutcome) :
    Except Thrown Unit × Nat :=
  if message = [] ∨ trim message = [] then
    (.error (.plain (toL "Commit message cannot be empty")), 0)
  else
    match (execJj [toL "commit", toL "-m", message] outcome).result with
    | .ok _ => (.ok (), 1)
    | .error e =>
        if optHasSub (toL "nothing to commit") e.stderr then
          (.error (.plain (toL "Nothing to commit - no changes in working copy")), 1)
        else (.error (.execErr e), 1)

/-- The message of `mergeBranch`'s missing-branch error:
`` `Branch "${branch}" does not exist` ``. -/
def branchNotExistMsg (branch : List Char) : List Char :=
  toL "Branch \"" ++ branch ++ toL "\" does not exist"

/-- The message of `mergeBranch`'s concurrent-modification error. -/
def mergeConflictMsg : List Char :=
  toL "Repository was modified by another process. Please refresh and try again."

/-- `mergeBranch(branch)`: fail fast on an empty/all-whitespace name with
zero spawns; otherwise run `jj new <branch> @` (one spawn) and remap
`No such revset` / `Concurrent modification` stderr, propagating other
failures. -/
def mergeBranchModel (branch : List Char) (outcome : SpawnOutcome) :
    Except Thrown Unit × Nat :=
  if branch = [] ∨ trim branch = [] then
    (.error (.plain (toL "Branch name cannot be empty")), 0)
  else
    match (execJj [toL "new", branch, toL "@"] outcome).result with
    | .ok _ => (.ok (), 1)
    | .error e =>
        if optHasSub (toL "No such revset") e.stderr then
          (.error (.plain (branchNotExistMsg branch)), 1)
        else if optHasSub (toL "Concurrent modification") e.stderr then
          (.error (.plain mergeConflictMsg), 1)
        else (.error (.execErr e), 1)

/-- The post-processing both branch-listing commands share:
`output.split('\n').map(l => l.trim()).filter(l => l)`. -/
def branchLines (output : List Char) : List (List Char) :=
  ((splitOnChar '\n' output).map trim).filter (· ≠ [])

/-- The primary branch-listing command. -/
def bookmarkArgs : List (List Char) := [toL "bookmark", toL "list", toL "--no-pager"]

/-- The legacy fallback branch-listing command. -/
def branchArgs : List (List Char) := [toL "branch", toL "list", toL "--no-pager"]

/-- `listBranches()`: run the primary command; on failure whose stderr
contains `unrecognized subcommand`, run the legacy command and return its
output when it succeeds, rethrowing the ORIGINAL error when it also
fails; any other failure propagates directly.  The spawn count records
whether the fallback ran. -/
def listBranchesModel (primary fallback : SpawnOutcome) :
    Except JjError (List (List Char)) × Nat :=
  match (execJj bookmarkArgs primary).result with
  | .ok out => (.ok (branchLines out), 1)
  | .error e =>
      if optHasSub (toL "unrecognized subcommand") e.stderr then
        match (execJj branchArgs fallback).result with
        | .ok out2 => (.ok (branchLines out2), 2)
        | .error _ => (.error e, 2)
      else (.error e, 1)

/-! ## Spec-side reading used to settle claim C2 -/

/-- Modelled from the claim's words only (not from the source): "the
first non-empty line of stderr". -/
def firstNonEmptyLineClaim (stderr : List Char) : Option (List Char) :=
  (splitLines stderr).find? (· ≠ [])

end JjVsc

namespace JjVsc

/-! ## Lemmas on the string model -/

theorem dropWhile_append_singleton {p : Char → Bool} {c : Char} (h : p c = false)
    (l : List Char) : (l ++ [c]).dropWhile p = l.dropWhile p ++ [c] := by
  rw [List.dropWhile_append]
  split
  · rename_i h1
    rw [List.isEmpty_iff] at h1
    simp [h1, List.dropWhile, h]
  · rfl

theorem dropTrail_cons_not_ws {c : Char} (h : isWS c = false) (l : List Char) :
    dropTrail (c :: l) = c :: dropTrail l := by
  unfold dropTrail
  rw [List.reverse_cons, dropWhile_append_singleton h, List.reverse_append]
  rfl

theorem dropTrail_eq_nil_iff {l : List Char} :
    dropTrail l = [] ↔ ∀ x ∈ l, isWS x = true := by
  unfold dropTrail
  simp [List.dropWhile_eq_nil_iff]

theorem dropTrail_cons_of_ne_nil {x : Char} {xs : List Char} (h : dropTrail xs ≠ []) :
    dropTrail (x :: xs) = x :: dropTrail xs := by
  unfold dropTrail at *
  rw [List.reverse_cons, List.dropWhile_append]
  split
  · rename_i h1
    rw [List.isEmpty_iff] at h1
    exact absurd (by simp [h1]) h
  · simp

theorem trim_cons_not_ws {c : Char} (h : isWS c = false) (l : List Char) :
    trim (c :: l) = c :: dropTrail l := by
  unfold trim
  rw [List.dropWhile_cons, if_neg (by simp [h])]
  exact dropTrail_cons_not_ws h l

theorem trim_cons_ws {c : Char} (h : isWS c = true) (l : List Char) :
    trim (c :: l) = trim l := by
  unfold trim
  rw [List.dropWhile_cons, if_pos (by simp [h])]

theorem dropWhile_dropTrail_comm (l : List Char) :
    (dropTrail l).dropWhile isWS = dropTrail (l.dropWhile isWS) := by
  induction l with
  | nil => rfl
  | cons x xs ih =>
    by_cases hx : isWS x = true
    · rw [List.dropWhile_cons, if_pos (by simp [hx])]
      by_cases hnil : dropTrail xs = []
      · have hall : ∀ y ∈ x :: xs, isWS y = true := by
          intro y hy
          rcases List.mem_cons.mp hy with rfl | hy
          · exact hx
          · exact dropTrail_eq_nil_iff.mp hnil y hy
        rw [dropTrail_eq_nil_iff.mpr hall]
        rw [hnil] at ih
        simpa using ih
      · rw [dropTrail_cons_of_ne_nil hnil, List.dropWhile_cons, if_pos (by simp [hx])]
        exact ih
    · have hx' : isWS x = false := by simpa using hx
      rw [dropTrail_cons_not_ws hx', List.dropWhile_cons, if_neg (by simp [hx']),
        List.dropWhile_cons, if_neg (by simp [hx']), dropTrail_cons_not_ws hx']

theorem dropTrail_idempotent (l : List Char) : dropTrail (dropTrail l) = dropTrail l := by
  unfold dropTrail
  rw [List.reverse_reverse, List.dropWhile_idempotent]

theorem trim_dropTrail (l : List Char) : trim (dropTrail l) = trim l := by
  unfold trim
  rw [dropWhile_dropTrail_comm, dropTrail_idempotent]

theorem trim_head_not_ws : ∀ {l c : _} {rest : List Char},
    trim l = c :: rest → isWS c = false := by
  intro l
  induction l with
  | nil => intro c rest h; cases h
  | cons x xs ih =>
    intro c rest h
    by_cases hx : isWS x = true
    · rw [trim_cons_ws hx] at h
      exact ih h
    · have hx' : isWS x = false := by simpa using hx
      rw [trim_cons_not_ws hx'] at h
      cases h
      exact hx'

end JjVsc

namespace JjVsc

theorem processLineE_eq (summary : StatusSummary) (rawLine : List Char) :
    processLineE summary rawLine = some (processLine summary rawLine) := by
  unfold processLineE processLine
  cases h : trim rawLine with
  | nil => simp
  | cons c rest =>
    by_cases hp : jjEcho.isPrefixOf (c :: rest) = true
    · simp [hp]
    · simp only [hp, Bool.false_eq_true, if_false, if_neg, List.head?_cons,
        List.drop_succ_cons, List.drop_zero, Option.some_bind]
      split_ifs <;> rfl

theorem foldlM_processLineE_eq (lines : List (List Char)) :
    ∀ summary : StatusSummary,
      lines.foldlM processLineE summary = some (lines.foldl processLine summary) := by
  induction lines with
  | nil => intro summary; rfl
  | cons l ls ih =>
    intro summary
    rw [List.foldlM_cons, processLineE_eq, List.foldl_cons]
    exact ih (processLine summary l)

/-- C1: for every input string — empty, malformed or adversarial — the
status parser returns a `StatusSummary` and never fails: the variant of
the parser that makes the loop body's character access explicitly partial
(`parseStatusOutputE`) succeeds on every input and agrees with the total
parser. -/
theorem parseStatusOutput_never_raises (output : List Char) :
    parseStatusOutputE output = some (parseStatusOutput output) := by
  unfold parseStatusOutputE parseStatusOutput
  exact foldlM_processLineE_eq (splitLines output) emptySummary

end JjVsc

namespace JjVsc

/-! ## Substring lemmas -/

theorem isPrefixOf_self_append (n t : List Char) : n.isPrefixOf (n ++ t) = true := by
  induction n with
  | nil => simp [List.isPrefixOf]
  | cons y ys ih => simpa [List.isPrefixOf] using ih

theorem hasSub_append (n a b : List Char) (hn : n ≠ []) : hasSub n (a ++ n ++ b) = true := by
  induction a with
  | nil =>
    cases n with
    | nil => exact absurd rfl hn
    | cons y ys =>
      show (idxOfSub (y :: ys) (y :: (ys ++ b))).isSome = true
      rw [idxOfSub, if_pos (by simpa using isPrefixOf_self_append (y :: ys) b)]
      rfl
  | cons x xs ih =>
    show (idxOfSub n (x :: (xs ++ n ++ b))).isSome = true
    rw [idxOfSub]
    split
    · rfl
    · show (Option.map _ _).isSome = true
      rw [Option.isSome_map']
      exact ih

theorem isPrefixOf_decomp : ∀ {n l : List Char}, n.isPrefixOf l = true → ∃ t, l = n ++ t := by
  intro n
  induction n with
  | nil => intro l _; exact ⟨l, rfl⟩
  | cons y ys ih =>
    intro l h
    cases l with
    | nil => cases h
    | cons x xs =>
      simp only [List.isPrefixOf, Bool.and_eq_true, beq_iff_eq] at h
      obtain ⟨rfl, h2⟩ := h
      obtain ⟨t, rfl⟩ := ih h2
      exact ⟨t, rfl⟩

theorem idxOfSub_decomp : ∀ {l : List Char} {n : List Char} {a : Nat},
    idxOfSub n l = some a → ∃ u v, l = u ++ n ++ v := by
  intro l
  induction l with
  | nil =>
    intro n a h
    unfold idxOfSub at h
    split at h
    · rename_i hn
      exact ⟨[], [], by simp [List.isEmpty_iff.mp hn]⟩
    · cases h
  | cons x xs ih =>
    intro n a h
    unfold idxOfSub at h
    split at h
    · rename_i hp
      obtain ⟨t, ht⟩ := isPrefixOf_decomp hp
      exact ⟨[], t, by simp [ht]⟩
    · rcases Option.map_eq_some'.mp h with ⟨a', ha', rfl⟩
      obtain ⟨u, v, huv⟩ := ih ha'
      exact ⟨x :: u, v, by simp [huv]⟩

theorem hasSub_of_decomp (n u v : List Char) (hn : n ≠ []) :
    hasSub n (u ++ n ++ v) = true := hasSub_append n u v hn

end JjVsc

namespace JjVsc

/-! ## Claims about the facade's error handling -/

/-- C8: `commit` with an empty or all-whitespace message and
`mergeBranch` with an empty or all-whitespace name fail locally with the
source's validation error and perform zero process spawns, whatever the
external process would have produced. -/
theorem commit_mergeBranch_fail_fast (message branch : List Char)
    (o1 o2 : SpawnOutcome) (hm : trim message = []) (hb : trim branch = []) :
    commitModel message o1 =
      (.error (.plain (toL "Commit message cannot be empty")), 0) ∧
    mergeBranchModel branch o2 =
      (.error (.plain (toL "Branch name cannot be empty")), 0) := by
  constructor
  · unfold commitModel
    rw [if_pos (Or.inr hm)]
  · unfold mergeBranchModel
    rw [if_pos (Or.inr hb)]

/-- Witness for C8 at the whitespace message `"  "` and name `" "`. -/
theorem commit_mergeBranch_fail_fast_witness :
    commitModel (toL "  ") SpawnOutcome.enoent =
      (.error (.plain (toL "Commit message cannot be empty")), 0) ∧
    mergeBranchModel (toL " ") SpawnOutcome.enoent =
      (.error (.plain (toL "Branch name cannot be empty")), 0) :=
  commit_mergeBranch_fail_fast (toL "  ") (toL " ") .enoent .enoent (by decide) (by decide)

/-- C9 (amended part): when the spawn resolves (exit code zero), `execJj`
returns the whitespace-trimmed captured stdout and never fails, whatever
stderr holds; a non-blank stderr only adds the logged warning line. -/
theorem execJj_success_never_fails (args : List (List Char)) (stdout stderr : List Char) :
    (execJj args (.success stdout stderr)).result = .ok (trim stdout) ∧
    (execJj args (.success stdout stderr)).warnings =
      (if trim stderr = [] then [] else [toL "jj command warning: " ++ trim stderr]) :=
  ⟨rfl, rfl⟩

/-- C9 counterexample: the claim says the runner returns THE CAPTURED
stdout; with stdout `"abc\n"` (and a non-empty stderr) the runner returns
the trimmed `"abc"`, which differs from the captured text. -/
theorem execJj_success_returns_trimmed :
    (execJj [] (.success (toL "abc\n") (toL "warning: xyz"))).result = .ok (toL "abc") ∧
    (execJj [] (.success (toL "abc\n") (toL "warning: xyz"))).warnings =
      [toL "jj command warning: warning: xyz"] ∧
    toL "abc" ≠ toL "abc\n" := by
  refine ⟨rfl, rfl, ?_⟩
  decide

/-- C7: for a non-blank branch name whose merge spawn fails, `mergeBranch`
remaps a `No such revset` stderr to the missing-branch error (whose
message contains the name), then a `Concurrent modification` stderr to
the refresh-and-retry conflict error, and propagates every other
execution error unchanged. -/
theorem mergeBranch_error_mapping (branch : List Char) (e : JjError) (o : SpawnOutcome)
    (hb : trim branch ≠ [])
    (he : (execJj [toL "new", branch, toL "@"] o).result = .error e) :
    (optHasSub (toL "No such revset") e.stderr = true →
       mergeBranchModel branch o = (.error (.plain (branchNotExistMsg branch)), 1) ∧
       hasSub branch (branchNotExistMsg branch) = true) ∧
    (optHasSub (toL "No such revset") e.stderr = false →
     optHasSub (toL "Concurrent modification") e.stderr = true →
       mergeBranchModel branch o = (.error (.plain mergeConflictMsg), 1) ∧
       hasSub (toL "refresh") mergeConflictMsg = true ∧
       hasSub (toL "try again") mergeConflictMsg = true) ∧
    (optHasSub (toL "No such revset") e.stderr = false →
     optHasSub (toL "Concurrent modification") e.stderr = false →
       mergeBranchModel branch o = (.error (.execErr e), 1)) := by
  have hbne : branch ≠ [] := by
    intro h
    exact hb (by rw [h]; rfl)
  have hguard : ¬(branch = [] ∨ trim branch = []) := by
    rintro (h | h)
    · exact hbne h
    · exact hb h
  refine ⟨?_, ?_, ?_⟩
  · intro h1
    constructor
    · unfold mergeBranchModel
      rw [if_neg hguard, he]
      simp [h1]
    · unfold branchNotExistMsg
      exact hasSub_of_decomp branch (toL "Branch \"") (toL "\" does not exist") hbne
  · intro h1 h2
    refine ⟨?_, by decide, by decide⟩
    unfold mergeBranchModel
    rw [if_neg hguard, he]
    simp [h1, h2]
  · intro h1 h2
    unfold mergeBranchModel
    rw [if_neg hguard, he]
    simp [h1, h2]

end JjVsc

namespace JjVsc

/-- Witness for C7 at branch `"x"` and a failing spawn whose stderr is
`"No such revset x"`. -/
theorem mergeBranch_error_mapping_witness :
    mergeBranchModel (toL "x") (.nonZeroExit 1 (some (toL "No such revset x"))) =
      (.error (.plain (branchNotExistMsg (toL "x"))), 1) ∧
    hasSub (toL "x") (branchNotExistMsg (toL "x")) = true :=
  (mergeBranch_error_mapping (toL "x")
    ⟨toL "Invalid revision or branch reference",
     [toL "new", toL "x", toL "@"],
     some (toL "No such revset x"), some 1⟩
    (.nonZeroExit 1 (some (toL "No such revset x")))
    (by decide) (by decide)).1 (by decide)

/-- C6: `listBranches` returns the processed primary output when the
primary spawn succeeds; when the primary fails with an
`unrecognized subcommand` stderr it runs the legacy command, returning
its processed output on success and rethrowing the PRIMARY error when the
fallback fails too; a primary failure without that stderr propagates
without running the fallback. -/
theorem listBranches_fallback (p f : SpawnOutcome) :
    (∀ out, (execJj bookmarkArgs p).result = .ok out →
       listBranchesModel p f = (.ok (branchLines out), 1)) ∧
    (∀ e, (execJj bookmarkArgs p).result = .error e →
       (optHasSub (toL "unrecognized subcommand") e.stderr = true →
          (∀ out2, (execJj branchArgs f).result = .ok out2 →
             listBranchesModel p f = (.ok (branchLines out2), 2)) ∧
          (∀ e2, (execJj branchArgs f).result = .error e2 →
             listBranchesModel p f = (.error e, 2))) ∧
       (optHasSub (toL "unrecognized subcommand") e.stderr = false →
          listBranchesModel p f = (.error e, 1))) := by
  constructor
  · intro out hout
    unfold listBranchesModel
    rw [hout]
  · intro e he
    refine ⟨fun h1 => ⟨?_, ?_⟩, fun h1 => ?_⟩
    · intro out2 hout2
      unfold listBranchesModel
      rw [he]
      simp [h1, hout2]
    · intro e2 he2
      unfold listBranchesModel
      rw [he]
      simp [h1, he2]
    · unfold listBranchesModel
      rw [he]
      simp [h1]

/-- Witness for C6: both commands fail (the primary with an
`unrecognized subcommand` stderr); the raised error is the primary's. -/
theorem listBranches_fallback_witness :
    listBranchesModel
      (.nonZeroExit 1 (some (toL "unrecognized subcommand bookmark")))
      (.nonZeroExit 2 (some (toL "some other failure"))) =
      (.error ⟨toL "unrecognized subcommand bookmark", bookmarkArgs,
               some (toL "unrecognized subcommand bookmark"), some 1⟩, 2) :=
  ((listBranches_fallback
      (.nonZeroExit 1 (some (toL "unrecognized subcommand bookmark")))
      (.nonZeroExit 2 (some (toL "some other failure")))).2
    ⟨toL "unrecognized subcommand bookmark", bookmarkArgs,
     some (toL "unrecognized subcommand bookmark"), some 1⟩
    (by decide)).1 (by decide) |>.2
    ⟨toL "some other failure", branchArgs, some (toL "some other failure"), some 2⟩
    (by decide)

end JjVsc

namespace JjVsc

theorem hasSub_split (n A B : List Char) (hn : n ≠ []) :
    hasSub n (A ++ (n ++ B)) = true := by
  have h := hasSub_append n A B hn
  simpa [List.append_assoc] using h

theorem hasSub_of_inner_arrow {r : List Char} {a s e : Nat}
    (ha : idxOfSub arrowTok ((r.take e).drop (s + 1)) = some a) :
    hasSub arrowTok r = true := by
  obtain ⟨u, v, huv⟩ := idxOfSub_decomp ha
  have h2 : r = (r.take e).take (s + 1) ++ ((u ++ arrowTok ++ v) ++ r.drop e) := by
    conv_lhs => rw [← List.take_append_drop e r]
    rw [← List.append_assoc]
    congr 1
    rw [← huv]
    exact (List.take_append_drop _ _).symm
  rw [h2]
  have h3 := hasSub_split arrowTok ((r.take e).take (s + 1) ++ u) (v ++ r.drop e) (by decide)
  simpa [List.append_assoc] using h3

/-- C5 counterexample: the rename helper returns an empty string on the
non-empty input `"=>"` (a dangling arrow with nothing after it). -/
theorem extractNewPathFromRename_empty_counterexample :
    extractNewPathFromRename (toL "=>") = [] ∧ toL "=>" ≠ [] := by
  constructor
  · rfl
  · decide

/-- C5 (amended): the rename helper is a total function, and it returns
an empty string only when the input path field is itself empty or
contains the rename arrow `"=>"` (whose right-hand side then trims to
nothing). -/
theorem extractNewPathFromRename_empty_only_if (r : List Char)
    (h : extractNewPathFromRename r = []) :
    r = [] ∨ hasSub arrowTok r = true := by
  unfold extractNewPathFromRename at h
  cases hs : idxOfC lbrace r with
  | none =>
    simp only [hs] at h
    cases ha : idxOfSub arrowTok r with
    | none => simp only [ha] at h; exact Or.inl h
    | some a => right; unfold hasSub; rw [ha]; rfl
  | some s =>
    cases he : idxOfC rbrace r with
    | none =>
      simp only [hs, he] at h
      cases ha : idxOfSub arrowTok r with
      | none => simp only [ha] at h; exact Or.inl h
      | some a => right; unfold hasSub; rw [ha]; rfl
    | some e =>
      simp only [hs, he] at h
      by_cases hlt : e < s
      · rw [if_pos hlt] at h
        cases ha : idxOfSub arrowTok r with
        | none => simp only [ha] at h; exact Or.inl h
        | some a => right; unfold hasSub; rw [ha]; rfl
      · rw [if_neg hlt] at h
        cases ha : idxOfSub arrowTok ((r.take e).drop (s + 1)) with
        | none => simp only [ha] at h; exact Or.inl h
        | some a => exact Or.inr (hasSub_of_inner_arrow ha)

/-- Closed application of the amended C5 theorem at the empty input. -/
theorem extractNewPathFromRename_empty_only_if_witness :
    ([] : List Char) = [] ∨ hasSub arrowTok [] = true :=
  extractNewPathFromRename_empty_only_if [] rfl

end JjVsc

namespace JjVsc

/-! ## Index lemmas for the brace analysis -/

theorem idxOfC_cons (c x : Char) (xs : List Char) :
    idxOfC c (x :: xs) = if x = c then some 0 else (idxOfC c xs).map (· + 1) := rfl

theorem idxOfC_cons_self (c : Char) (l : List Char) : idxOfC c (c :: l) = some 0 := by
  rw [idxOfC_cons, if_pos rfl]

theorem idxOfC_append_of_not_mem {c : Char} :
    ∀ {l1 : List Char}, c ∉ l1 → ∀ l2 : List Char,
      idxOfC c (l1 ++ l2) = (idxOfC c l2).map (· + l1.length) := by
  intro l1
  induction l1 with
  | nil =>
    intro _ l2
    cases ho : idxOfC c l2 <;> simp [ho]
  | cons x xs ih =>
    intro h l2
    have hx : ¬x = c := fun hc => h (by simp [hc])
    have hxs : c ∉ xs := fun hc => h (List.mem_cons_of_mem _ hc)
    rw [List.cons_append, idxOfC_cons, if_neg hx, ih hxs l2]
    cases ho : idxOfC c l2 with
    | none => simp
    | some a => simp [Nat.add_assoc]

end JjVsc

namespace JjVsc

theorem idxOfC_of_not_mem {c : Char} : ∀ {l : List Char}, c ∉ l → idxOfC c l = none := by
  intro l
  induction l with
  | nil => intro _; rfl
  | cons x xs ih =>
    intro h
    rw [idxOfC_cons, if_neg (fun hc => h (by simp [hc])),
      ih (fun hc => h (List.mem_cons_of_mem _ hc))]
    rfl

theorem braced_idx_lbrace (pre rest : List Char) (hpre : lbrace ∉ pre) :
    idxOfC lbrace (pre ++ lbrace :: rest) = some pre.length := by
  rw [idxOfC_append_of_not_mem hpre, idxOfC_cons_self]
  simp

theorem braced_idx_rbrace (pre inner suf : List Char)
    (hp : rbrace ∉ pre) (hi : rbrace ∉ inner) :
    idxOfC rbrace (pre ++ lbrace :: (inner ++ rbrace :: suf)) =
      some (pre.length + (inner.length + 1)) := by
  have hA : rbrace ∉ pre ++ lbrace :: inner := by
    intro hmem
    rcases List.mem_append.mp hmem with h | h
    · exact hp h
    · rcases List.mem_cons.mp h with h | h
      · exact absurd h (by decide)
      · exact hi h
  have hr : pre ++ lbrace :: (inner ++ rbrace :: suf) =
      (pre ++ lbrace :: inner) ++ (rbrace :: suf) := by simp
  rw [hr, idxOfC_append_of_not_mem hA, idxOfC_cons_self]
  simp

theorem extract_braced (pre inner suf : List Char)
    (h1 : lbrace ∉ pre) (h2 : rbrace ∉ pre) (h3 : rbrace ∉ inner) :
    extractNewPathFromRename (pre ++ lbrace :: (inner ++ rbrace :: suf)) =
      (match idxOfSub arrowTok inner with
       | some a => pre ++ trim (inner.drop (a + 2)) ++ suf
       | none => pre ++ lbrace :: (inner ++ rbrace :: suf)) := by
  have hs := braced_idx_lbrace pre (inner ++ rbrace :: suf) h1
  have he := braced_idx_rbrace pre inner suf h2 h3
  set r := pre ++ lbrace :: (inner ++ rbrace :: suf) with hrdef
  have hlt : ¬(pre.length + (inner.length + 1) < pre.length) := by omega
  have htake_s : r.take pre.length = pre := by
    rw [hrdef]
    exact List.take_left pre _
  have hAeq : r = (pre ++ lbrace :: inner) ++ (rbrace :: suf) := by simp [hrdef]
  have hlenA : (pre ++ lbrace :: inner).length = pre.length + (inner.length + 1) := by simp
  have htake_e : r.take (pre.length + (inner.length + 1)) = pre ++ lbrace :: inner := by
    rw [hAeq, ← hlenA]
    exact List.take_left _ _
  have hinner : (pre ++ lbrace :: inner).drop (pre.length + 1) = inner := by
    have h := @List.drop_append Char pre (lbrace :: inner) 1
    simpa using h
  have hBeq : r = ((pre ++ lbrace :: inner) ++ [rbrace]) ++ suf := by simp [hrdef]
  have hlenB : ((pre ++ lbrace :: inner) ++ [rbrace]).length =
      pre.length + (inner.length + 1) + 1 := by
    simp
    omega
  have hsuf : r.drop (pre.length + (inner.length + 1) + 1) = suf := by
    rw [hBeq, ← hlenB]
    exact List.drop_left _ _
  unfold extractNewPathFromRename
  simp only [hs, he, if_neg hlt, htake_s, htake_e, hinner, hsuf]

end JjVsc

namespace JjVsc

/-- C3: the rename rule.  (a) For a field that is a single well-formed
brace pair `pre ++ \x7b inner \x7d ++ suf` (no `\x7b` in the prefix, no
`\x7d` before the closing brace), the derived path is
`pre ++ trim(text after the first arrow of inner) ++ suf`, and the field
itself when the braces hold no arrow.  (b) With no braces anywhere, the
derived path is the trimmed text after the first arrow when one exists,
else the field unmodified.  (c) The concrete example:
`"R src/\x7bold.ts => new.ts\x7d"` parses to the moved path
`"src/new.ts"`. -/
theorem rename_rule_spec :
    (∀ pre inner suf : List Char, lbrace ∉ pre → rbrace ∉ pre → rbrace ∉ inner →
       (∀ a, idxOfSub arrowTok inner = some a →
          extractNewPathFromRename (pre ++ lbrace :: (inner ++ rbrace :: suf)) =
            pre ++ trim (inner.drop (a + 2)) ++ suf) ∧
       (idxOfSub arrowTok inner = none →
          extractNewPathFromRename (pre ++ lbrace :: (inner ++ rbrace :: suf)) =
            pre ++ lbrace :: (inner ++ rbrace :: suf))) ∧
    (∀ r : List Char, lbrace ∉ r → rbrace ∉ r →
       (∀ a, idxOfSub arrowTok r = some a →
          extractNewPathFromRename r = trim (r.drop (a + 2))) ∧
       (idxOfSub arrowTok r = none → extractNewPathFromRename r = r)) ∧
    (parseStatusOutput (toL "R src/\x7bold.ts => new.ts\x7d")).moved =
      [⟨toL "src/new.ts", Status.moved⟩] := by
  refine ⟨?_, ?_, ?_⟩
  · intro pre inner suf h1 h2 h3
    have hb := extract_braced pre inner suf h1 h2 h3
    constructor
    · intro a ha
      rw [hb, ha]
    · intro ha
      rw [hb, ha]
  · intro r h1 h2
    have hs : idxOfC lbrace r = none := idxOfC_of_not_mem h1
    have he : idxOfC rbrace r = none := idxOfC_of_not_mem h2
    constructor
    · intro a ha
      unfold extractNewPathFromRename
      simp only [hs, he, ha]
    · intro ha
      unfold extractNewPathFromRename
      simp only [hs, he, ha]
  · decide

/-- Witness for C3: the braced conjunct applied at the example field. -/
theorem rename_rule_spec_witness :
    extractNewPathFromRename (toL "src/\x7bold.ts => new.ts\x7d") = toL "src/new.ts" := by
  have h := (rename_rule_spec.1 (toL "src/") (toL "old.ts => new.ts") []
    (by decide) (by decide) (by decide)).1 7 (by decide)
  have e1 : toL "src/" ++ lbrace :: (toL "old.ts => new.ts" ++ rbrace :: ([] : List Char)) =
      toL "src/\x7bold.ts => new.ts\x7d" := by decide
  have e2 : toL "src/" ++ trim ((toL "old.ts => new.ts").drop (7 + 2)) ++ ([] : List Char) =
      toL "src/new.ts" := by decide
  rw [e1, e2] at h
  exact h

end JjVsc

namespace JjVsc

theorem jjEcho_not_prefixOf {c : Char} (hj : ('j' == c) = false) (l : List Char) :
    jjEcho.isPrefixOf (c :: l) = false := by
  have hjj : jjEcho = ['j', 'j', ' '] := by decide
  rw [hjj]
  simp [List.isPrefixOf, hj]

theorem processLine_cons_code {c : Char} (hws : isWS c = false) (hj : ('j' == c) = false)
    (s : StatusSummary) (p : List Char) :
    processLine s (c :: p) =
      (if c = 'A' then { s with added := s.added ++ [⟨trim p, .added⟩] }
       else if c = 'D' then { s with deleted := s.deleted ++ [⟨trim p, .deleted⟩] }
       else if c = 'M' then { s with modified := s.modified ++ [⟨trim p, .modified⟩] }
       else if c = 'R' then
         { s with moved := s.moved ++ [⟨extractNewPathFromRename (trim p), .moved⟩] }
       else s) := by
  unfold processLine
  rw [trim_cons_not_ws hws]
  rw [if_neg (by simp)]
  rw [if_neg (by simp [jjEcho_not_prefixOf hj])]
  simp only [trim_dropTrail]

end JjVsc

namespace JjVsc

/-- C10 (amended): each line is trimmed before the first character is
read as the status code and no separating space is required, so for every
recognized code the no-space line `"Cp"` is processed exactly like
`"C p"`; the recorded path is `trim p` for codes `A`, `D`, `M`, while for
`R` it is the rename rule applied to `trim p` (not `trim p` itself). -/
theorem parse_code_space_leniency (s : StatusSummary) (c : Char) (p : List Char)
    (hc : c = 'A' ∨ c = 'D' ∨ c = 'M' ∨ c = 'R') :
    processLine s (c :: p) = processLine s (c :: ' ' :: p) ∧
    (c = 'A' → processLine s (c :: p) = { s with added := s.added ++ [⟨trim p, .added⟩] }) ∧
    (c = 'D' → processLine s (c :: p) = { s with deleted := s.deleted ++ [⟨trim p, .deleted⟩] }) ∧
    (c = 'M' →
       processLine s (c :: p) = { s with modified := s.modified ++ [⟨trim p, .modified⟩] }) ∧
    (c = 'R' → processLine s (c :: p) =
       { s with moved := s.moved ++ [⟨extractNewPathFromRename (trim p), .moved⟩] }) := by
  have hspace : trim (' ' :: p) = trim p := trim_cons_ws (by decide) p
  have step : ∀ q : List Char, processLine s (c :: q) =
      (if c = 'A' then { s with added := s.added ++ [⟨trim q, .added⟩] }
       else if c = 'D' then { s with deleted := s.deleted ++ [⟨trim q, .deleted⟩] }
       else if c = 'M' then { s with modified := s.modified ++ [⟨trim q, .modified⟩] }
       else if c = 'R' then
         { s with moved := s.moved ++ [⟨extractNewPathFromRename (trim q), .moved⟩] }
       else s) := by
    intro q
    rcases hc with rfl | rfl | rfl | rfl <;>
      exact processLine_cons_code (by decide) (by decide) s q
  refine ⟨?_, ?_, ?_, ?_, ?_⟩
  · rw [step p, step (' ' :: p), hspace]
  all_goals intro hcc
  all_goals rw [step p, hcc]
  all_goals simp

/-- C10 counterexample: for the recognized code `R` and the non-empty
field `"a => b"`, the no-space line is handled like the spaced line, but
the recorded path is the rename-derived `"b"`, not `trim "a => b"` as the
claim states. -/
theorem parse_nospace_R_counterexample :
    (parseStatusOutput (toL "Ra => b")).moved = [⟨toL "b", Status.moved⟩] ∧
    (parseStatusOutput (toL "R a => b")).moved = [⟨toL "b", Status.moved⟩] ∧
    trim (toL "a => b") ≠ toL "b" := by
  refine ⟨rfl, rfl, ?_⟩
  decide

/-- Witness for C10 at code `M` and field `" x "`. -/
theorem parse_code_space_leniency_witness :
    processLine emptySummary (toL "M x ") = processLine emptySummary (toL "M  x ") ∧
    processLine emptySummary (toL "M x ") =
      { emptySummary with modified := [⟨toL "x", Status.modified⟩] } := by
  have h := parse_code_space_leniency emptySummary 'M' (toL " x ") (by decide)
  have e1 : 'M' :: toL " x " = toL "M x " := by decide
  have e2 : 'M' :: ' ' :: toL " x " = toL "M  x " := by decide
  constructor
  · have h1 := h.1
    rw [e1, e2] at h1
    exact h1
  · have h2 := h.2.2.2.1 rfl
    rw [e1] at h2
    have e3 : trim (toL " x ") = toL "x" := by decide
    rw [e3] at h2
    exact h2

end JjVsc

namespace JjVsc

theorem splitOnCharAux_headD_append (sep : Char) :
    ∀ l acc : List Char, ∃ t, (splitOnCharAux sep l acc).headD [] = acc.reverse ++ t := by
  intro l
  induction l with
  | nil =>
    intro acc
    exact ⟨[], by simp [splitOnCharAux]⟩
  | cons x xs ih =>
    intro acc
    by_cases hx : x = sep
    · exact ⟨[], by simp [splitOnCharAux, hx]⟩
    · obtain ⟨t, ht⟩ := ih (x :: acc)
      refine ⟨x :: t, ?_⟩
      rw [splitOnCharAux, if_neg hx, ht]
      simp

theorem trim_firstLine_ne_nil {st : List Char} (h : trim st ≠ []) :
    (splitOnChar '\n' (trim st)).headD [] ≠ [] := by
  obtain ⟨c, rest, hcr⟩ : ∃ c rest, trim st = c :: rest := by
    cases hmm : trim st with
    | nil => exact absurd hmm h
    | cons c rest => exact ⟨c, rest, rfl⟩
  have hcws : isWS c = false := trim_head_not_ws hcr
  have hcn : ¬c = '\n' := by
    intro hh
    rw [hh] at hcws
    exact absurd hcws (by decide)
  rw [hcr]
  unfold splitOnChar
  rw [splitOnCharAux, if_neg hcn]
  obtain ⟨t, ht⟩ := splitOnCharAux_headD_append '\n' rest [c]
  rw [ht]
  simp

end JjVsc

namespace JjVsc

theorem deriveMessage_eq_table (exitCode : Nat) (st : List Char) :
    deriveMessage exitCode st =
      (if hasSub (toL "No such revset") st then toL "Invalid revision or branch reference"
       else if hasSub (toL "Concurrent modification") st then
         toL "Repository was modified by another process"
       else if hasSub (toL "Permission denied") st then
         toL "Permission denied accessing repository"
       else if hasSub (toL "not a valid Jujutsu repository") st then
         toL "Not a valid JuJutsu repository"
       else if trim st ≠ [] then (splitOnChar '\n' (trim st)).headD []
       else genericFailMsg exitCode) := by
  unfold deriveMessage
  by_cases h0 : st = []
  · subst h0
    have c1 : hasSub (toL "No such revset") [] = false := by decide
    have c2 : hasSub (toL "Concurrent modification") [] = false := by decide
    have c3 : hasSub (toL "Permission denied") [] = false := by decide
    have c4 : hasSub (toL "not a valid Jujutsu repository") [] = false := by decide
    have c5 : trim ([] : List Char) = [] := by decide
    simp [c1, c2, c3, c4, c5]
  · rw [if_neg h0]
    have hfl : (if (splitOnChar '\n' (trim st)).headD [] = [] then genericFailMsg exitCode
                else (splitOnChar '\n' (trim st)).headD []) =
        (if trim st ≠ [] then (splitOnChar '\n' (trim st)).headD []
         else genericFailMsg exitCode) := by
      by_cases ht : trim st = []
      · rw [ht]
        simp [splitOnChar, splitOnCharAux]
      · rw [if_neg (trim_firstLine_ne_nil ht), if_pos ht]
    exact if_congr Iff.rfl rfl (if_congr Iff.rfl rfl (if_congr Iff.rfl rfl
      (if_congr Iff.rfl rfl hfl)))

end JjVsc

namespace JjVsc

/-- C2 (amended): for every non-zero-exit failure, `execJj` raises the
execution error carrying the exit code and the stderr text, and its
message follows the ordered, first-match-wins, case-sensitive substring
table over stderr; when no pattern matches, the message is the first line
of the whitespace-trimmed stderr, and when stderr is empty (or blank,
so that nothing remains after trimming) it is the generic
`command failed with exit code N` message. -/
theorem execJj_nonZeroExit_message_table (args : List (List Char)) (exitCode : Nat)
    (stderr : Option (List Char)) (hc : exitCode ≠ 0) :
    execJj args (.nonZeroExit exitCode stderr) =
      { result := .error
          { message :=
              (if hasSub (toL "No such revset") (stderr.getD []) then
                 toL "Invalid revision or branch reference"
               else if hasSub (toL "Concurrent modification") (stderr.getD []) then
                 toL "Repository was modified by another process"
               else if hasSub (toL "Permission denied") (stderr.getD []) then
                 toL "Permission denied accessing repository"
               else if hasSub (toL "not a valid Jujutsu repository") (stderr.getD []) then
                 toL "Not a valid JuJutsu repository"
               else if trim (stderr.getD []) ≠ [] then
                 (splitOnChar '\n' (trim (stderr.getD []))).headD []
               else genericFailMsg exitCode)
            args := args
            stderr := some (stderr.getD [])
            exitCode := some exitCode }
        warnings := [] } := by
  simp only [execJj]
  rw [if_neg hc, deriveMessage_eq_table]

/-- Witness for C2 (amended) at exit code 3 and a revset-pattern stderr. -/
theorem execJj_message_table_witness :
    execJj [] (.nonZeroExit 3 (some (toL "No such revset foo"))) =
      { result := .error ⟨toL "Invalid revision or branch reference", [],
          some (toL "No such revset foo"), some 3⟩
        warnings := [] } := by
  have h := execJj_nonZeroExit_message_table [] 3 (some (toL "No such revset foo")) (by decide)
  rw [h]
  decide

/-- C2 counterexample: with stderr `"  x\ny"` (no table pattern), the
claim's "first non-empty line of stderr" is `"  x"`, but the code's
message is `"x"`: the code takes the first line AFTER trimming the whole
stderr, which strips the leading spaces. -/
theorem execJj_message_not_firstNonEmptyLine :
    firstNonEmptyLineClaim (toL "  x\ny") = some (toL "  x") ∧
    (execJj [] (.nonZeroExit 1 (some (toL "  x\ny")))).result =
      .error ⟨toL "x", [], some (toL "  x\ny"), some 1⟩ ∧
    toL "x" ≠ toL "  x" := by
  refine ⟨by decide, by decide, by decide⟩

end JjVsc

namespace JjVsc

/-- C4 (amended): every path of every group of a `status()` result is the
corresponding parsed path rewritten with `path.join(root, path)` (the
status is untouched, order and length are preserved); a parsed path that
is already absolute is NOT passed through unchanged — `path.join`
concatenates it under the root like any other path. -/
theorem status_paths_joined (root output : List Char) :
    (∀ i : Nat, (statusModel root output).modified[i]? =
      ((parseStatusOutput output).modified[i]?).map
        (fun f => ⟨pathJoin root f.path, f.status⟩)) ∧
    (∀ i : Nat, (statusModel root output).added[i]? =
      ((parseStatusOutput output).added[i]?).map
        (fun f => ⟨pathJoin root f.path, f.status⟩)) ∧
    (∀ i : Nat, (statusModel root output).deleted[i]? =
      ((parseStatusOutput output).deleted[i]?).map
        (fun f => ⟨pathJoin root f.path, f.status⟩)) ∧
    (∀ i : Nat, (statusModel root output).moved[i]? =
      ((parseStatusOutput output).moved[i]?).map
        (fun f => ⟨pathJoin root f.path, f.status⟩)) := by
  refine ⟨fun i => ?_, fun i => ?_, fun i => ?_, fun i => ?_⟩ <;>
    simp only [statusModel, List.getElem?_map] <;>
    cases h : (parseStatusOutput output).modified[i]? <;>
    cases h2 : (parseStatusOutput output).added[i]? <;>
    cases h3 : (parseStatusOutput output).deleted[i]? <;>
    cases h4 : (parseStatusOutput output).moved[i]? <;>
    simp [makeAbsolute]

/-- C4 counterexample: with root `"/repo"` and one already-absolute
parsed path `"/abs/x"`, `status()` does not pass the path through: it
returns `"/repo/abs/x"`. -/
theorem status_absolute_not_preserved :
    (statusModel (toL "/repo") (toL "M /abs/x")).modified =
      [⟨toL "/repo/abs/x", Status.modified⟩] ∧
    isAbsolutePath (toL "/abs/x") = true ∧
    toL "/repo/abs/x" ≠ toL "/abs/x" := by
  refine ⟨by decide, by decide, by decide⟩

end JjVsc
